import Mathlib

/-!
Verification of the mongoose flag-occupancy and uvfits subsystems.

The definitions below are shallow embeddings of the Rust source:

* `src/cotter.rs` — `Occupancy::new` (packed-bit flag decoding via a
  256-bucket histogram per byte column) and `Occupancy::reflag`
  (REFLG_nn header keys);
* `src/fits/uvfits.rs` — `encode_uvfits_baseline`, `write_uvfits_vis`;
* `src/time/mod.rs` — `get_truncated_date_string`;
* `src/bin/ms-to-uvfits.rs` — the phase-rotor loop and the
  polarization-reordering loop;
* `src/bin/unphase-uvfits.rs` — the per-row visibility-correction loop.

Machine integers (`u8`, `u32`, `usize`) are embedded as `Nat` with an
explicit `% 2 ^ 32` where wraparound is possible; `f64` occupancy
fractions are embedded as `ℚ` (only the result of the strict `>`
comparison matters to the claims); `f32`/`f64` visibility samples are
embedded as `ℝ`, so the trigonometric identities hold exactly (the
spec's "up to floating-point rounding").
-/

namespace Mongoose

/-! ### Baseline encoding (`src/fits/uvfits.rs`, `encode_uvfits_baseline`) -/

/-- Embedding of `encode_uvfits_baseline(b1, b2)`: `u32` arithmetic,
so the result is reduced `% 2 ^ 32`. -/
def encode_uvfits_baseline (b1 b2 : Nat) : Nat :=
  (if 255 < b2 then b1 * 2048 + b2 + 65536 else b1 * 256 + b2) % 2 ^ 32

/-! ### Occupancy reflagging (`src/cotter.rs`, `Occupancy::reflag`) -/

/-- Embedding of `format!("REFLG_{:02}", n)`: zero-pad the ordinal to a
minimum width of two digits. -/
def reflgKey (n : Nat) : String :=
  "REFLG_" ++ (if n < 10 then "0" ++ toString n else toString n)

/-- One step of the `Occupancy::reflag` loop: the accumulator carries
`n_reflag` and the header keys written so far; a channel `(i, o)` with
`o > threshold` appends the key `REFLG_<n_reflag>` valued `i`. -/
def reflagStep (threshold : ℚ) (acc : Nat × List (String × Nat)) (p : Nat × ℚ) :
    Nat × List (String × Nat) :=
  if threshold < p.2 then (acc.1 + 1, acc.2 ++ [(reflgKey acc.1, p.1)]) else acc

/-- Embedding of the `Occupancy::reflag` loop body: iterate over the
enumerated `flag_fraction_per_channel` and collect the written header
keys in order. -/
def reflag (fractions : List ℚ) (threshold : ℚ) : List (String × Nat) :=
  (fractions.enum.foldl (reflagStep threshold) (0, [])).2

/-- Error type for the embedded fallible operations. -/
inductive MgError where
  | valueError (msg : String)
  | fitsError (status : Int)
  deriving DecidableEq

/-- Embedding of the full `Occupancy::reflag` result: the source performs
no validation of `threshold` whatsoever (the file copy and key writes can
only fail in the external I/O collaborator, which is not modelled), so the
call returns `Ok` with the written keys for every threshold. -/
def reflagResult (fractions : List ℚ) (threshold : ℚ) :
    Except MgError (List (String × Nat)) :=
  .ok (reflag fractions threshold)

/-! ### uvfits row writing (`src/fits/uvfits.rs`, `write_uvfits_vis`) -/

/-- One random-group write performed through the binary-table
collaborator: the 1-based group number and the values written. -/
structure GroupWrite where
  group : Nat
  values : List ℝ

/-- Model of the external `ffpgpe` primitive: append one group record of
`nelem` values taken from `row`, and report status 0. -/
def ffpgpe (file : List GroupWrite) (group : Nat) (nelem : Nat) (row : List ℝ) :
    List GroupWrite × Int :=
  (file ++ [⟨group, row.take nelem⟩], 0)

/-- Embedding of `fits_check_status`. -/
def fits_check_status (status : Int) : Except MgError Unit :=
  if status = 0 then .ok () else .error (.fitsError status)

/-- Embedding of `write_uvfits_vis(uvfits, row_num, row)`: a single
`ffpgpe` call writing `row.len()` values at group `1 + row_num`, followed
by a status check.  There is no validation of `row`'s length against the
container's `channel_count * polarization_count * 3`. -/
def write_uvfits_vis (file : List GroupWrite) (row_num : Nat) (row : List ℝ) :
    Except MgError (List GroupWrite) :=
  let r := ffpgpe file (1 + row_num) row.length row
  (fits_check_status r.2).map (fun _ => r.1)

/-! ### Truncated date strings (`src/time/mod.rs`, `get_truncated_date_string`) -/

/-- Embedding of `hifitime::Epoch::from_tai_seconds`: seconds (TAI) since
1900-01-01T00:00:00 TAI, kept exact as a rational. -/
structure Epoch where
  tai_seconds : ℚ

/-- Proleptic-Gregorian date from a count of days since 1970-01-01
(Hinnant's `civil_from_days`; the divisions are floor divisions, which
`Int./` provides for the positive divisors used here). -/
def civilFromDays (z0 : Int) : Int × Nat × Nat :=
  let z : Int := z0 + 719468
  let era : Int := z / 146097
  let doe : Nat := (z - era * 146097).toNat
  let yoe : Nat := (doe - doe / 1460 + doe / 36524 - doe / 146096) / 365
  let y : Int := (yoe : Int) + era * 400
  let doy : Nat := doe - (365 * yoe + yoe / 4 - yoe / 100)
  let mp : Nat := (5 * doy + 2) / 153
  let d : Nat := doy - (153 * mp + 2) / 5 + 1
  let m : Nat := if mp < 10 then mp + 3 else mp - 9
  (y + (if m ≤ 2 then 1 else 0), m, d)

/-- Modelled from the spec: the UTC calendar day of an epoch, as computed
by the external astronomy/time collaborator (`hifitime`'s
`Epoch::as_gregorian_utc`, which is out of the core's scope).  The MJD
epoch 1858-11-17 lies 15020 days before the TAI epoch 1900-01-01 and
40587 days before 1970-01-01; the TAI→UTC leap-second offset is fixed at
the 35 s value in effect during 2012–2015, which covers the epochs used
by the claims (and cannot move a time of day that is hours away from
midnight across a date boundary). -/
def Epoch.mjdUtcDay (e : Epoch) : Int :=
  ⌊(e.tai_seconds - 35) / 86400⌋ + 15020

/-- Modelled from the spec: year, month and day of the epoch's UTC
calendar date, the tuple returned by the external
`Epoch::as_gregorian_utc` collaborator. -/
def as_gregorian_utc_date (e : Epoch) : Int × Nat × Nat :=
  civilFromDays (e.mjdUtcDay - 40587)

/-- Embedding of `get_truncated_date_string`: format the calendar date
with `format!("{year}-{month}-{day}T00:00:00.0")` — plain decimal
components, no zero padding. -/
def get_truncated_date_string (e : Epoch) : String :=
  let ymd := as_gregorian_utc_date e
  toString ymd.1 ++ "-" ++ toString ymd.2.1 ++ "-" ++ toString ymd.2.2 ++
    "T00:00:00.0"

/-- The epoch of the spec's worked example: MJD `56580.575370370374`,
built exactly as the source's doctest does, from
`mjd * 24 * 3600 - 1297728000` TAI seconds. -/
def exampleEpoch : Epoch :=
  ⟨(56580.575370370374 : ℚ) * 24 * 3600 - 1297728000⟩

/-- An epoch falling on 2013-01-05 (MJD 56297) at noon UTC, used to
exhibit the absence of zero padding. -/
def januaryEpoch : Epoch :=
  ⟨(56297.5 : ℚ) * 24 * 3600 - 1297728000⟩

end Mongoose

namespace Mongoose

/-! ### Theorems for claims C3, C4, C7, C8 -/

/-- Claim C4: for 1-based antenna indices (the extended encoding supports
up to 2048 antennas), `encode_uvfits_baseline` returns
`ant1*2048 + ant2 + 65536` when `ant2 > 255` and `ant1*256 + ant2`
otherwise; in particular `encode_uvfits_baseline 1 2 = 258` and
`encode_uvfits_baseline 1 300 = 67884`. -/
theorem encode_uvfits_baseline_spec (b1 b2 : Nat)
    (h1 : 1 ≤ b1) (h1' : b1 ≤ 2048) (h2 : 1 ≤ b2) (h2' : b2 ≤ 2048) :
    encode_uvfits_baseline b1 b2 =
      (if 255 < b2 then b1 * 2048 + b2 + 65536 else b1 * 256 + b2) ∧
    encode_uvfits_baseline 1 2 = 258 ∧
    encode_uvfits_baseline 1 300 = 67884 := by
  refine ⟨?_, by decide, by decide⟩
  unfold encode_uvfits_baseline
  split <;> exact Nat.mod_eq_of_lt (by omega)

/-- Witness for C4 at the concrete input `(1, 300)`. -/
theorem encode_uvfits_baseline_spec_witness :
    encode_uvfits_baseline 1 300 =
      (if 255 < 300 then 1 * 2048 + 300 + 65536 else 1 * 256 + 300) :=
  (encode_uvfits_baseline_spec 1 300 (by decide) (by decide) (by decide)
    (by decide)).1

/-- Claim C3 (counterexample): `reflag` does not fail for thresholds
outside `(0, 1]`.  With a single fully flagged channel (fraction 1), a threshold
of `2` succeeds writing no key, and a threshold of `0` succeeds writing
`REFLG_00`; the claimed `ValueError` never occurs. -/
theorem reflag_threshold_c3_counterexample :
    reflagResult [(1 : ℚ)] 2 = .ok [] ∧
    reflagResult [(1 : ℚ)] 0 = .ok [("REFLG_00", 0)] ∧
    ((2 : ℚ) ≤ 0 ∨ 1 < (2 : ℚ)) ∧ ((0 : ℚ) ≤ 0 ∨ 1 < (0 : ℚ)) := by
  refine ⟨?_, ?_, by norm_num, by norm_num⟩ <;> rfl

/-- Claim C3 (amended): the source performs no threshold validation at
all — `Occupancy::reflag` succeeds for every archive, destination and
threshold value (I/O aside), returning the keys for the channels whose
fraction strictly exceeds the threshold. -/
theorem reflag_no_threshold_validation (fractions : List ℚ) (threshold : ℚ) :
    (reflagResult fractions threshold).isOk = true ∧
    reflagResult fractions threshold = .ok (reflag fractions threshold) := by
  exact ⟨rfl, rfl⟩

/-- Claim C7 (counterexample): `write_uvfits_vis` does not validate the
samples length.  For a container with `channel_count = 2` and
`polarization_count = 4` (expected row length `2 * 4 * 3 = 24`), writing
a row of length 1 succeeds and writes that one-value group record. -/
theorem write_uvfits_vis_c7_counterexample :
    write_uvfits_vis [] 0 [(3.5 : ℝ)] = .ok [⟨1, [(3.5 : ℝ)]⟩] ∧
    ([(3.5 : ℝ)].length ≠ 2 * 4 * 3) := by
  constructor
  · rfl
  · decide

/-- Claim C7 (amended): `write_uvfits_vis` performs no length validation;
for every prior file state, row index and samples vector it succeeds,
appending exactly one binary group record at group `row_index + 1`
containing exactly the given samples. -/
theorem write_uvfits_vis_no_length_check (file : List GroupWrite)
    (row_num : Nat) (row : List ℝ) :
    write_uvfits_vis file row_num row = .ok (file ++ [⟨1 + row_num, row⟩]) := by
  simp [write_uvfits_vis, ffpgpe, fits_check_status, Except.map, List.take_length]

/-- Claim C8 (counterexample): the formatted date is not zero padded.
For an epoch on 2013-01-05 the source produces `"2013-1-5T00:00:00.0"`,
not the claimed `YYYY-MM-DD` form `"2013-01-05T00:00:00.0"`. -/
theorem truncated_date_c8_counterexample :
    get_truncated_date_string januaryEpoch = "2013-1-5T00:00:00.0" ∧
    "2013-1-5T00:00:00.0" ≠ "2013-01-05T00:00:00.0" := by
  constructor
  · have hday : januaryEpoch.mjdUtcDay = 56297 := by
      unfold Epoch.mjdUtcDay januaryEpoch
      norm_num
    unfold get_truncated_date_string as_gregorian_utc_date
    rw [hday]
    decide
  · decide

/-- Claim C8 (amended): `get_truncated_date_string` returns the epoch's
UTC calendar date with the time of day zeroed, formatted
`{year}-{month}-{day}T00:00:00.0` with unpadded decimal components; in
particular, for the epoch corresponding to MJD `56580.575370370374`
(TAI-epoch offset 1297728000 seconds) it returns
`"2013-10-15T00:00:00.0"` exactly as the spec's example states. -/
theorem truncated_date_format_and_example :
    (∀ e : Epoch,
      get_truncated_date_string e =
        toString (as_gregorian_utc_date e).1 ++ "-" ++
        toString (as_gregorian_utc_date e).2.1 ++ "-" ++
        toString (as_gregorian_utc_date e).2.2 ++ "T00:00:00.0") ∧
    get_truncated_date_string exampleEpoch = "2013-10-15T00:00:00.0" := by
  constructor
  · intro e
    rfl
  · have hday : exampleEpoch.mjdUtcDay = 56580 := by
      unfold Epoch.mjdUtcDay exampleEpoch
      norm_num
    unfold get_truncated_date_string as_gregorian_utc_date
    rw [hday]
    decide

end Mongoose

namespace Mongoose

/-! ### Claim C2: the reflag directive -/

/-- Recursive restatement of the `reflag` loop, convenient for
induction: `k` is the running `n_reflag` ordinal. -/
def reflagGo (threshold : ℚ) (k : Nat) : List (Nat × ℚ) → List (String × Nat)
  | [] => []
  | (i, v) :: rest =>
      if threshold < v then (reflgKey k, i) :: reflagGo threshold (k + 1) rest
      else reflagGo threshold k rest

theorem reflag_foldl_eq_go (th : ℚ) :
    ∀ (l : List (Nat × ℚ)) (k : Nat) (out : List (String × Nat)),
      (l.foldl (reflagStep th) (k, out)).2 = out ++ reflagGo th k l := by
  intro l
  induction l with
  | nil => intro k out; simp [reflagGo]
  | cons p rest ih =>
    intro k out
    obtain ⟨i, v⟩ := p
    by_cases h : th < v
    · simp [reflagStep, reflagGo, h, ih]
    · simp [reflagStep, reflagGo, h, ih]

theorem map_shift_shift {β : Type} (l : List (Nat × β)) (m n : Nat) :
    (l.map (fun q => (q.1 + m, q.2))).map (fun q => (q.1 + n, q.2)) =
      l.map (fun q => (q.1 + (n + m), q.2)) := by
  rw [List.map_map]
  refine List.map_congr_left ?_
  intro a _
  show (a.1 + m + n, a.2) = (a.1 + (n + m), a.2)
  exact congrArg (fun t => (t, a.2)) (by omega)

theorem enumFrom_eq_enum_map {α : Type} (L : List α) :
    ∀ n, List.enumFrom n L = L.enum.map (fun q => (q.1 + n, q.2)) := by
  induction L with
  | nil => intro n; simp
  | cons x xs ih =>
    intro n
    rw [List.enumFrom_cons, List.enum_cons, List.map_cons, ih (n + 1), ih 1,
      map_shift_shift]
    exact congrArg₂ _ (by simp) rfl

theorem reflagGo_eq_filter_enum (th : ℚ) :
    ∀ (l : List (Nat × ℚ)) (k : Nat),
      reflagGo th k l =
        (l.filter (fun p => decide (th < p.2))).enum.map
          (fun q => (reflgKey (k + q.1), q.2.1)) := by
  intro l
  induction l with
  | nil => intro k; simp [reflagGo]
  | cons p rest ih =>
    intro k
    obtain ⟨i, v⟩ := p
    by_cases h : th < v
    · rw [reflagGo, if_pos h]
      have hf : ((i, v) :: rest).filter (fun p => decide (th < p.2)) =
          (i, v) :: rest.filter (fun p => decide (th < p.2)) := by
        simp [List.filter_cons, h]
      rw [hf, List.enum_cons, List.map_cons, ih (k + 1),
        enumFrom_eq_enum_map _ 1, List.map_map]
      refine congrArg₂ _ rfl (List.map_congr_left ?_)
      intro a _
      show (reflgKey (k + 1 + a.1), a.2.1) = (reflgKey (k + (a.1 + 1)), a.2.1)
      exact congrArg (fun t => (reflgKey t, a.2.1)) (by omega)
    · rw [reflagGo, if_neg h]
      have hf : ((i, v) :: rest).filter (fun p => decide (th < p.2)) =
          rest.filter (fun p => decide (th < p.2)) := by
        simp [List.filter_cons, h]
      rw [hf, ih k]

theorem reflag_eq_filter_enum (fr : List ℚ) (th : ℚ) :
    reflag fr th =
      (fr.enum.filter (fun p => decide (th < p.2))).enum.map
        (fun q => (reflgKey q.1, q.2.1)) := by
  rw [reflag, reflag_foldl_eq_go, List.nil_append, reflagGo_eq_filter_enum]
  exact List.map_congr_left (fun a _ => by simp)

/-- Claim C2: `reflag` writes exactly one metadata key per channel whose
fraction strictly exceeds the threshold, iterating channels in ascending
order; keys are `REFLG_00`, `REFLG_01`, … assigned from ordinal 0 in that
order, each valued with the 0-based channel index; a channel at exactly
the threshold gets no entry, and no ordinal beyond the number of
exceeding channels appears. -/
theorem reflag_entries_spec (fr : List ℚ) (th : ℚ) :
    reflag fr th =
      (fr.enum.filter (fun p => decide (th < p.2))).enum.map
        (fun q => (reflgKey q.1, q.2.1)) ∧
    (reflag fr th).length =
      (fr.enum.filter (fun p => decide (th < p.2))).length ∧
    (∀ k i, (k, i) ∈ reflag fr th → i < fr.length ∧ th < fr.getD i 0) ∧
    ((reflag fr th).map Prod.snd).Pairwise (fun a b => a < b) ∧
    (∀ n, n < (reflag fr th).length →
      (reflag fr th).getD n ("", 0) =
        (reflgKey n,
          ((fr.enum.filter (fun p => decide (th < p.2))).getD n (0, 0)).1)) := by
  have hmain := reflag_eq_filter_enum fr th
  refine ⟨hmain, ?_, ?_, ?_, ?_⟩
  · rw [hmain]; simp
  · intro k i hmem
    rw [hmain] at hmem
    rcases List.mem_map.mp hmem with ⟨q, hq, hqe⟩
    have hsnd : q.2 ∈ (fr.enum.filter (fun p => decide (th < p.2))) := by
      have := List.mem_map_of_mem Prod.snd hq
      rwa [List.enum_map_snd] at this
    rcases List.mem_filter.mp hsnd with ⟨henum, hlt⟩
    have hget : fr[q.2.1]? = some q.2.2 := List.mem_enum_iff_getElem?.mp henum
    rcases List.getElem?_eq_some_iff.mp hget with ⟨hlen, hval⟩
    have hi : i = q.2.1 := by
      have := congrArg Prod.snd hqe
      simpa using this.symm
    subst hi
    refine ⟨hlen, ?_⟩
    rw [List.getD_eq_getElem fr 0 hlen, hval]
    simpa using hlt
  · rw [hmain, List.map_map]
    have hcomp : (Prod.snd ∘ fun q : Nat × (Nat × ℚ) => (reflgKey q.1, q.2.1)) =
        (Prod.fst ∘ Prod.snd) := rfl
    rw [hcomp, ← List.map_map, List.enum_map_snd]
    have hsub : ((fr.enum.filter (fun p => decide (th < p.2))).map Prod.fst).Sublist
        (fr.enum.map Prod.fst) :=
      List.Sublist.map Prod.fst (List.filter_sublist _)
    rw [List.enum_map_fst] at hsub
    exact List.Pairwise.sublist hsub (List.pairwise_lt_range _)
  · intro n hn
    rw [hmain] at hn ⊢
    have hn'' : n < (fr.enum.filter (fun p => decide (th < p.2))).length := by
      simpa using hn
    rw [List.getD_eq_getElem _ _ hn, List.getElem_map, List.getElem_enum,
      List.getD_eq_getElem _ _ hn'']

/-- Witness for C2: fractions `[1, 0, 1]` with threshold `0` — channels 0
and 2 exceed, channel 1 sits exactly at the threshold. -/
theorem reflag_entries_spec_witness :
    (2 < ([(1 : ℚ), 0, 1]).length ∧ (0 : ℚ) < ([(1 : ℚ), 0, 1]).getD 2 0) ∧
    (reflag [(1 : ℚ), 0, 1] 0).getD 1 ("", 0) =
      (reflgKey 1,
        ((([(1 : ℚ), 0, 1]).enum.filter
          (fun p => decide ((0 : ℚ) < p.2))).getD 1 (0, 0)).1) :=
  ⟨(reflag_entries_spec [(1 : ℚ), 0, 1] 0).2.2.1 "REFLG_01" 2 (by decide),
   (reflag_entries_spec [(1 : ℚ), 0, 1] 0).2.2.2.2 1 (by decide)⟩

end Mongoose

namespace Mongoose

/-! ### Claim C5: the phase-tracking rotor
(`src/bin/ms-to-uvfits.rs` undo_phase_tracking loop,
`src/bin/unphase-uvfits.rs` visibility-correction loop) -/

/-- Direction of the phase-rotor application: "add" is the sign used by
the source loops (undoing phase tracking multiplies by
`e^(+i 2 pi w freq)`), "remove" is the opposite sign. -/
inductive PhaseDirection where
  | add
  | remove
  deriving DecidableEq

/-- Sign factor of a direction. -/
def PhaseDirection.sign : PhaseDirection → ℝ
  | .add => 1
  | .remove => -1

/-- The opposite direction. -/
def PhaseDirection.flip : PhaseDirection → PhaseDirection
  | .add => .remove
  | .remove => .add

/-- Embedding of `num_complex::Complex32` multiplication on `(re, im)`
pairs, as performed by `vis_chan *= Complex32::new(re, im)`. -/
def cmul (v c : ℝ × ℝ) : ℝ × ℝ :=
  (v.1 * c.1 - v.2 * c.2, v.1 * c.2 + v.2 * c.1)

/-- The per-channel rotor `(re, im) = (cos θ, ±sin θ)` with
`θ = TAU * w_seconds * freq`, computed by `(TAU * w * freq).sin_cos()` in
the source (`TAU = 2π`). -/
noncomputable def phase_rotor (dir : PhaseDirection) (w_seconds freq : ℝ) : ℝ × ℝ :=
  (Real.cos (2 * Real.pi * w_seconds * freq),
   dir.sign * Real.sin (2 * Real.pi * w_seconds * freq))

/-- Embedding of the source's enumerated channel loop: channel `i` is
multiplied (every polarization sample alike) by the rotor for
`channel_freqs[i]`.  Out-of-range frequency lookups — which would panic in
the source — default to frequency 0 (a unit rotor); this never arises when
the frequency list covers the row. -/
noncomputable def apply_phase_rotor_from (dir : PhaseDirection) (w_seconds : ℝ)
    (freqs : List ℝ) : Nat → List (List (ℝ × ℝ)) → List (List (ℝ × ℝ))
  | _, [] => []
  | i, chan :: rest =>
      chan.map (fun v => cmul v (phase_rotor dir w_seconds (freqs.getD i 0))) ::
      apply_phase_rotor_from dir w_seconds freqs (i + 1) rest

/-- Embedding of `apply_phase_rotor(vis_row, w_seconds, channel_freqs,
direction)`: the channel loop started at index 0. -/
noncomputable def apply_phase_rotor (dir : PhaseDirection) (w_seconds : ℝ)
    (freqs : List ℝ) (row : List (List (ℝ × ℝ))) : List (List (ℝ × ℝ)) :=
  apply_phase_rotor_from dir w_seconds freqs 0 row

theorem cmul_rotor_cancel (v : ℝ × ℝ) (c s : ℝ) (h : c ^ 2 + s ^ 2 = 1) :
    cmul (cmul v (c, s)) (c, -s) = v := by
  unfold cmul
  refine Prod.ext ?_ ?_
  · show (v.1 * c - v.2 * s) * c - (v.1 * s + v.2 * c) * (-s) = v.1
    linear_combination v.1 * h
  · show (v.1 * c - v.2 * s) * (-s) + (v.1 * s + v.2 * c) * c = v.2
    linear_combination v.2 * h

theorem cmul_phase_rotor_cancel (dir : PhaseDirection) (v : ℝ × ℝ) (w f : ℝ) :
    cmul (cmul v (phase_rotor dir w f)) (phase_rotor dir.flip w f) = v := by
  have hpy := Real.cos_sq_add_sin_sq (2 * Real.pi * w * f)
  cases dir with
  | add =>
    have hc := cmul_rotor_cancel v (Real.cos (2 * Real.pi * w * f))
      (Real.sin (2 * Real.pi * w * f)) hpy
    simp only [phase_rotor, PhaseDirection.flip, PhaseDirection.sign, one_mul,
      neg_one_mul]
    exact hc
  | remove =>
    have hpy' : Real.cos (2 * Real.pi * w * f) ^ 2 +
        (-Real.sin (2 * Real.pi * w * f)) ^ 2 = 1 := by
      rw [neg_sq]
      exact hpy
    have hc := cmul_rotor_cancel v (Real.cos (2 * Real.pi * w * f))
      (-Real.sin (2 * Real.pi * w * f)) hpy'
    rw [neg_neg] at hc
    simp only [phase_rotor, PhaseDirection.flip, PhaseDirection.sign, one_mul,
      neg_one_mul]
    exact hc

theorem apply_phase_rotor_from_roundtrip (dir : PhaseDirection) (w : ℝ)
    (freqs : List ℝ) :
    ∀ (row : List (List (ℝ × ℝ))) (i : Nat),
      apply_phase_rotor_from dir.flip w freqs i
        (apply_phase_rotor_from dir w freqs i row) = row := by
  intro row
  induction row with
  | nil => intro i; rfl
  | cons chan rest ih =>
    intro i
    rw [apply_phase_rotor_from, apply_phase_rotor_from, List.map_map]
    refine congrArg₂ _ ?_ (ih (i + 1))
    have hpt : ∀ v ∈ chan,
        ((fun v => cmul v (phase_rotor dir.flip w (freqs.getD i 0))) ∘
          (fun v => cmul v (phase_rotor dir w (freqs.getD i 0)))) v = id v :=
      fun v _ => cmul_phase_rotor_cancel dir v w (freqs.getD i 0)
    rw [List.map_congr_left hpt, List.map_id]

/-- Claim C5: applying the phase rotor in one direction and then in the
opposite direction, with the same `w_seconds` and channel frequencies,
returns the original row of complex visibility samples (exactly, in the
real-number embedding of the floating-point arithmetic — each direction
multiplies every sample of channel `i` by
`cos(2π·w·freq[i]) ± i·sin(2π·w·freq[i])`). -/
theorem apply_phase_rotor_roundtrip (w : ℝ) (freqs : List ℝ)
    (row : List (List (ℝ × ℝ))) :
    apply_phase_rotor .remove w freqs (apply_phase_rotor .add w freqs row) = row ∧
    apply_phase_rotor .add w freqs (apply_phase_rotor .remove w freqs row) = row := by
  constructor
  · exact apply_phase_rotor_from_roundtrip .add w freqs row 0
  · exact apply_phase_rotor_from_roundtrip .remove w freqs row 0

end Mongoose

namespace Mongoose

/-! ### Claim C6: polarization reordering
(`src/bin/ms-to-uvfits.rs`, the `uvfits_vis` construction loop) -/

/-- Embedding of the zip-and-push loop that builds `uvfits_vis`: per
channel, push `xx.re, xx.im, wxx, yy.re, yy.im, wyy, xy.re, xy.im, wxy,
yx.re, yx.im, wyx`; the zip chain ends as soon as any input runs out. -/
def reorder_polarizations :
    List (ℝ × ℝ) → List (ℝ × ℝ) → List (ℝ × ℝ) → List (ℝ × ℝ) →
    List ℝ → List ℝ → List ℝ → List ℝ → List ℝ
  | cxx :: xx, cxy :: xy, cyx :: yx, cyy :: yy,
    wxx :: wxxs, wxy :: wxys, wyx :: wyxs, wyy :: wyys =>
      cxx.1 :: cxx.2 :: wxx ::
      cyy.1 :: cyy.2 :: wyy ::
      cxy.1 :: cxy.2 :: wxy ::
      cyx.1 :: cyx.2 :: wyx ::
      reorder_polarizations xx xy yx yy wxxs wxys wyxs wyys
  | _, _, _, _, _, _, _, _ => []

/-- Claim C6: with all eight per-channel inputs of length `n`, the
reordering emits, per channel in ascending order, the 12 floats
(XX re, XX im, XX weight, YY re, YY im, YY weight, XY re, XY im,
XY weight, YX re, YX im, YX weight) in exactly that order, each weight
paired with its own polarization, for a total length of
`n * 4 * 3`. -/
theorem reorder_polarizations_spec (n : Nat) :
    ∀ (xx xy yx yy : List (ℝ × ℝ)) (wxx wxy wyx wyy : List ℝ),
      xx.length = n → xy.length = n → yx.length = n → yy.length = n →
      wxx.length = n → wxy.length = n → wyx.length = n → wyy.length = n →
      reorder_polarizations xx xy yx yy wxx wxy wyx wyy =
        (List.range n).flatMap (fun c =>
          [(xx.getD c (0, 0)).1, (xx.getD c (0, 0)).2, wxx.getD c 0,
           (yy.getD c (0, 0)).1, (yy.getD c (0, 0)).2, wyy.getD c 0,
           (xy.getD c (0, 0)).1, (xy.getD c (0, 0)).2, wxy.getD c 0,
           (yx.getD c (0, 0)).1, (yx.getD c (0, 0)).2, wyx.getD c 0]) ∧
      (reorder_polarizations xx xy yx yy wxx wxy wyx wyy).length = n * 4 * 3 := by
  induction n with
  | zero =>
    intro xx xy yx yy wxx wxy wyx wyy h1 h2 h3 h4 h5 h6 h7 h8
    rw [List.length_eq_zero] at h1 h2 h3 h4 h5 h6 h7 h8
    subst h1; subst h2; subst h3; subst h4
    subst h5; subst h6; subst h7; subst h8
    exact ⟨rfl, rfl⟩
  | succ n ih =>
    intro xx xy yx yy wxx wxy wyx wyy h1 h2 h3 h4 h5 h6 h7 h8
    obtain ⟨cxx, xx, rfl⟩ := List.exists_of_length_succ xx h1
    obtain ⟨cxy, xy, rfl⟩ := List.exists_of_length_succ xy h2
    obtain ⟨cyx, yx, rfl⟩ := List.exists_of_length_succ yx h3
    obtain ⟨cyy, yy, rfl⟩ := List.exists_of_length_succ yy h4
    obtain ⟨vxx, wxx, rfl⟩ := List.exists_of_length_succ wxx h5
    obtain ⟨vxy, wxy, rfl⟩ := List.exists_of_length_succ wxy h6
    obtain ⟨vyx, wyx, rfl⟩ := List.exists_of_length_succ wyx h7
    obtain ⟨vyy, wyy, rfl⟩ := List.exists_of_length_succ wyy h8
    simp only [List.length_cons, Nat.succ.injEq] at h1 h2 h3 h4 h5 h6 h7 h8
    obtain ⟨ihmain, ihlen⟩ := ih xx xy yx yy wxx wxy wyx wyy h1 h2 h3 h4 h5 h6 h7 h8
    constructor
    · rw [List.range_succ_eq_map, List.flatMap_cons, List.flatMap_map]
      simp only [List.getD_cons_zero, List.getD_cons_succ]
      rw [reorder_polarizations, ihmain]
      simp [Function.comp]
    · rw [reorder_polarizations]
      simp only [List.length_cons, ihlen]
      omega

/-- Witness for C6 at one concrete channel. -/
theorem reorder_polarizations_spec_witness :
    reorder_polarizations [((1 : ℝ), 2)] [((3 : ℝ), 4)] [((5 : ℝ), 6)]
        [((7 : ℝ), 8)] [(9 : ℝ)] [(10 : ℝ)] [(11 : ℝ)] [(12 : ℝ)] =
      (List.range 1).flatMap (fun c =>
        [(([((1 : ℝ), 2)]).getD c (0, 0)).1, (([((1 : ℝ), 2)]).getD c (0, 0)).2,
         ([(9 : ℝ)]).getD c 0,
         (([((7 : ℝ), 8)]).getD c (0, 0)).1, (([((7 : ℝ), 8)]).getD c (0, 0)).2,
         ([(12 : ℝ)]).getD c 0,
         (([((3 : ℝ), 4)]).getD c (0, 0)).1, (([((3 : ℝ), 4)]).getD c (0, 0)).2,
         ([(10 : ℝ)]).getD c 0,
         (([((5 : ℝ), 6)]).getD c (0, 0)).1, (([((5 : ℝ), 6)]).getD c (0, 0)).2,
         ([(11 : ℝ)]).getD c 0]) ∧
    (reorder_polarizations [((1 : ℝ), 2)] [((3 : ℝ), 4)] [((5 : ℝ), 6)]
        [((7 : ℝ), 8)] [(9 : ℝ)] [(10 : ℝ)] [(11 : ℝ)] [(12 : ℝ)]).length =
      1 * 4 * 3 :=
  reorder_polarizations_spec 1 [((1 : ℝ), 2)] [((3 : ℝ), 4)] [((5 : ℝ), 6)]
    [((7 : ℝ), 8)] [(9 : ℝ)] [(10 : ℝ)] [(11 : ℝ)] [(12 : ℝ)]
    rfl rfl rfl rfl rfl rfl rfl rfl

end Mongoose

namespace Mongoose

/-! ### Claim C10: the unphase transform's frame property
(`src/bin/unphase-uvfits.rs`, main row loop) -/

/-- Embedding of one inner update of the unphase loop: at offset `i`
(one of 0, 3, 6, 9 — real XX, real YY, real XY, real YX) of channel
`fi`'s block of `floats_per_pol * num_pols` floats, replace
`(vis[step], vis[step+1])` by their product with the rotor `c`. -/
def unphaseChannelStep (fpp np fi : Nat) (c : ℝ × ℝ) (v : List ℝ) (i : Nat) :
    List ℝ :=
  let step := fi * fpp * np + i
  let re := v.getD step 0
  let im := v.getD (step + 1) 0
  (v.set step (re * c.1 - im * c.2)).set (step + 1) (re * c.2 + im * c.1)

/-- Embedding of the `for &i in &[0, 3, 6, 9]` loop for one channel. -/
def unphaseChannel (fpp np fi : Nat) (c : ℝ × ℝ) (v : List ℝ) : List ℝ :=
  [0, 3, 6, 9].foldl (unphaseChannelStep fpp np fi c) v

/-- Embedding of the per-row frequency loop: each channel's rotor is
`(cos, sin)` of `TAU * w * fine_chan_freqs[freq_index]`. -/
noncomputable def unphaseVis (fpp np : Nat) (w : ℝ) (freqs : List ℝ) (nc : Nat)
    (vis : List ℝ) : List ℝ :=
  (List.range nc).foldl (fun v fi =>
    unphaseChannel fpp np fi
      (Real.cos (2 * Real.pi * w * freqs.getD fi 0),
       Real.sin (2 * Real.pi * w * freqs.getD fi 0)) v) vis

/-- Embedding of one full row of the unphase loop: `w` is read from
`group_params[2]`, the visibilities are corrected, and the row written
back is `group_params` followed by the corrected visibilities
(`group_params.append(&mut vis)` before the single `ffpgpe` write). -/
noncomputable def unphase_row (gparams : List ℝ) (fpp np nc : Nat) (freqs : List ℝ)
    (vis : List ℝ) : List ℝ :=
  gparams ++ unphaseVis fpp np (gparams.getD 2 0) freqs nc vis

theorem getD_set_ne {α : Type} (l : List α) (j p : Nat) (x d : α) (h : j ≠ p) :
    (l.set j x).getD p d = l.getD p d := by
  rw [List.getD_eq_getElem?_getD, List.getD_eq_getElem?_getD, List.getElem?_set,
    if_neg h]

theorem getD_set_eq {α : Type} (l : List α) (j : Nat) (x d : α)
    (h : j < l.length) : (l.set j x).getD j d = x := by
  rw [List.getD_eq_getElem?_getD, List.getElem?_set, if_pos rfl, if_pos h]
  rfl

theorem unphaseChannelStep_frame (fi i : Nat) (hi : i % 3 = 0) (c : ℝ × ℝ)
    (v : List ℝ) :
    (unphaseChannelStep 3 4 fi c v i).length = v.length ∧
    ∀ p, p % 3 = 2 → (unphaseChannelStep 3 4 fi c v i).getD p 0 = v.getD p 0 := by
  constructor
  · simp [unphaseChannelStep]
  · intro p hp
    unfold unphaseChannelStep
    rw [getD_set_ne _ _ _ _ _ (by omega), getD_set_ne _ _ _ _ _ (by omega)]

theorem unphaseChannel_frame (fi : Nat) (c : ℝ × ℝ) (v : List ℝ) :
    (unphaseChannel 3 4 fi c v).length = v.length ∧
    ∀ p, p % 3 = 2 → (unphaseChannel 3 4 fi c v).getD p 0 = v.getD p 0 := by
  unfold unphaseChannel
  simp only [List.foldl_cons, List.foldl_nil]
  constructor
  · rw [(unphaseChannelStep_frame fi 9 (by decide) c _).1,
      (unphaseChannelStep_frame fi 6 (by decide) c _).1,
      (unphaseChannelStep_frame fi 3 (by decide) c _).1,
      (unphaseChannelStep_frame fi 0 (by decide) c _).1]
  · intro p hp
    rw [(unphaseChannelStep_frame fi 9 (by decide) c _).2 p hp,
      (unphaseChannelStep_frame fi 6 (by decide) c _).2 p hp,
      (unphaseChannelStep_frame fi 3 (by decide) c _).2 p hp,
      (unphaseChannelStep_frame fi 0 (by decide) c _).2 p hp]

theorem unphaseVis_frame (w : ℝ) (freqs : List ℝ) (nc : Nat) (vis : List ℝ) :
    (unphaseVis 3 4 w freqs nc vis).length = vis.length ∧
    ∀ p, p % 3 = 2 → (unphaseVis 3 4 w freqs nc vis).getD p 0 = vis.getD p 0 := by
  induction nc with
  | zero => exact ⟨rfl, fun p _ => rfl⟩
  | succ n ih =>
    unfold unphaseVis at ih ⊢
    rw [List.range_succ, List.foldl_append, List.foldl_cons, List.foldl_nil]
    constructor
    · rw [(unphaseChannel_frame n _ _).1, ih.1]
    · intro p hp
      rw [(unphaseChannel_frame n _ _).2 p hp, ih.2 p hp]

/-- Claim C10: for every row processed by the unphase transform (with the
standard three floats per polarization and four polarizations), only the
real and imaginary components of the polarization triples are modified:
the weight component of every `(re, im, weight)` triple — every float at
an offset `≡ 2 (mod 3)` in the data part — and all the group parameters
(u, v, w, baseline, date offset) are written back with exactly their
original values, and the data part keeps its length. -/
theorem unphase_row_frame (gparams : List ℝ) (nc : Nat) (freqs : List ℝ)
    (vis : List ℝ) :
    (unphase_row gparams 3 4 nc freqs vis).take gparams.length = gparams ∧
    ((unphase_row gparams 3 4 nc freqs vis).drop gparams.length).length =
      vis.length ∧
    ∀ p, p % 3 = 2 →
      ((unphase_row gparams 3 4 nc freqs vis).drop gparams.length).getD p 0 =
        vis.getD p 0 := by
  unfold unphase_row
  rw [List.take_left, List.drop_left]
  exact ⟨rfl, (unphaseVis_frame _ freqs nc vis).1,
    (unphaseVis_frame _ freqs nc vis).2⟩

/-- Witness for C10: a concrete five-parameter group and one channel of
twelve floats; the date offset block and the weight at data offset 2 are
returned unchanged. -/
theorem unphase_row_frame_witness :
    (unphase_row [(1 : ℝ), 2, 3, 4, 5] 3 4 1 [(6 : ℝ)]
        [(7 : ℝ), 8, 9, 10, 11, 12, 13, 14, 15, 16, 17, 18]).take 5 =
      [(1 : ℝ), 2, 3, 4, 5] ∧
    ((unphase_row [(1 : ℝ), 2, 3, 4, 5] 3 4 1 [(6 : ℝ)]
        [(7 : ℝ), 8, 9, 10, 11, 12, 13, 14, 15, 16, 17, 18]).drop 5).getD 2 0 =
      ([(7 : ℝ), 8, 9, 10, 11, 12, 13, 14, 15, 16, 17, 18]).getD 2 0 :=
  ⟨(unphase_row_frame [(1 : ℝ), 2, 3, 4, 5] 1 [(6 : ℝ)]
      [(7 : ℝ), 8, 9, 10, 11, 12, 13, 14, 15, 16, 17, 18]).1,
   (unphase_row_frame [(1 : ℝ), 2, 3, 4, 5] 1 [(6 : ℝ)]
      [(7 : ℝ), 8, 9, 10, 11, 12, 13, 14, 15, 16, 17, 18]).2.2 2 rfl⟩

end Mongoose

namespace Mongoose

/-! ### Claims C1 and C9: flag decoding (`src/cotter.rs`, `Occupancy::new`)

The decode section of `Occupancy::new` collapses the packed flag bytes
into per-channel totals: for each byte column `s`, a 256-bucket histogram
of the column's byte values is built, and then, for each of the 256
possible byte values and each of its 8 bits, the value's histogram count
is added into `total[7*(s+1) + s - bit]` whenever the bit is set.  The
Rust indexing `total[...]` panics when the channel index reaches
`n_chans`; the embedding models the panic as `none`. -/

/-- Embedding of `flags.iter().skip(0).step_by(w)` on the remaining list:
take the head, then skip `w - 1` elements. -/
def stepBy {α : Type} (w : Nat) : List α → List α
  | [] => []
  | x :: xs => x :: stepBy w (xs.drop (w - 1))
termination_by l => l.length
decreasing_by simp only [List.length_drop, List.length_cons]; omega

/-- Byte column `s` of the flag buffer:
`flags.iter().skip(s).step_by(width)`. -/
def column (width s : Nat) (flags : List Nat) : List Nat :=
  stepBy width (flags.drop s)

/-- Embedding of `total[idx] += h` including the Rust bounds check: an
out-of-bounds index panics, modelled as `none`. -/
def bumpAt (idx amt : Nat) (t : List Nat) : Option (List Nat) :=
  if idx < t.length then some (t.set idx (t.getD idx 0 + amt)) else none

/-- One iteration of the `for bit in 0..8` loop for byte value `v` with
histogram count `h`. -/
def bitStep (s h v : Nat) (a : Option (List Nat)) (bit : Nat) :
    Option (List Nat) :=
  if (v >>> bit) &&& 1 = 1 then a.bind (bumpAt (7 * (s + 1) + s - bit) h)
  else a

/-- Embedding of the `for bit in 0..8` unpack loop for one histogram
bucket. -/
def unpackByte (s v h : Nat) (acc : Option (List Nat)) : Option (List Nat) :=
  (List.range 8).foldl (bitStep s h v) acc

/-- One iteration of the `for (v, h) in histogram.iter().enumerate()`
loop: the histogram count of byte value `v` in column `s` is the number
of occurrences of `v` in that column. -/
def byteStep (width : Nat) (flags : List Nat) (s : Nat)
    (a : Option (List Nat)) (v : Nat) : Option (List Nat) :=
  unpackByte s v ((column width s flags).count v) a

/-- Embedding of one outer iteration (`for s in 0..width`): build column
`s`'s histogram and unpack it. -/
def unpackColumn (width s : Nat) (flags : List Nat)
    (acc : Option (List Nat)) : Option (List Nat) :=
  (List.range 256).foldl (byteStep width flags s) acc

/-- The column step, as folded by the decoder. -/
def colStep (width : Nat) (flags : List Nat) (a : Option (List Nat))
    (s : Nat) : Option (List Nat) :=
  unpackColumn width s flags a

/-- Embedding of the decode section of `Occupancy::new`
(`decode_channel_histograms` in the spec): start from
`vec![0_u32; n_chans]` and run the histogram unpack over every byte
column; `none` models an index panic. -/
def decode_channel_histograms (n_chans width : Nat) (flags : List Nat) :
    Option (List Nat) :=
  (List.range width).foldl (colStep width flags)
    (some (List.replicate n_chans 0))

/-- The claim's naive count: channel `c` lives in bit `7 - c % 8` of byte
column `c / 8`; its total is the number of (baseline, scan) rows whose
byte there has that bit set. -/
def flagCountsNaive (n_chans width n_rows : Nat) (flags : List Nat) :
    List Nat :=
  (List.range n_chans).map (fun c =>
    ((List.range n_rows).filter (fun r =>
      decide ((flags.getD (r * width + c / 8) 0 >>> (7 - c % 8)) &&& 1 = 1))).length)

/-- The total added to channel `c` by the unpack of column `s`, exactly
as the double loop accumulates it. -/
def colSum (width s : Nat) (flags : List Nat) (c : Nat) : Nat :=
  ((List.range 256).map (fun v => ((List.range 8).map (fun b =>
    if (v >>> b) &&& 1 = 1 ∧ 7 * (s + 1) + s - b = c then
      (column width s flags).count v else 0)).sum)).sum

theorem bitStep_none (s h v bit : Nat) : bitStep s h v none bit = none := by
  unfold bitStep
  split <;> rfl

theorem foldl_bitStep_none (s h v : Nat) (bits : List Nat) :
    List.foldl (bitStep s h v) none bits = none := by
  induction bits with
  | nil => rfl
  | cons b bs ih => rw [List.foldl_cons, bitStep_none]; exact ih

theorem unpackByte_none (s v h : Nat) : unpackByte s v h none = none :=
  foldl_bitStep_none s h v (List.range 8)

theorem foldl_byteStep_none (width : Nat) (flags : List Nat) (s : Nat)
    (vs : List Nat) :
    List.foldl (byteStep width flags s) none vs = none := by
  induction vs with
  | nil => rfl
  | cons v vs ih =>
    rw [List.foldl_cons, show byteStep width flags s none v = none from
      unpackByte_none s v _]
    exact ih

theorem unpackColumn_none (width s : Nat) (flags : List Nat) :
    unpackColumn width s flags none = none :=
  foldl_byteStep_none width flags s (List.range 256)

theorem unpackByte_zero (s h : Nat) (acc : Option (List Nat)) :
    unpackByte s 0 h acc = acc := by
  have hz : ∀ (a : Option (List Nat)) (bit : Nat), bitStep s h 0 a bit = a := by
    intro a bit
    unfold bitStep
    rw [if_neg (by simp [Nat.zero_shiftRight, Nat.zero_and])]
  unfold unpackByte
  rw [show List.range 8 = [0, 1, 2, 3, 4, 5, 6, 7] from rfl]
  simp only [List.foldl_cons, List.foldl_nil, hz]

theorem unpackByte_one_bad (s h : Nat) (t : List Nat)
    (hbad : ¬7 * (s + 1) + s < t.length) :
    unpackByte s 1 h (some t) = none := by
  unfold unpackByte
  rw [show List.range 8 = 0 :: [1, 2, 3, 4, 5, 6, 7] from rfl, List.foldl_cons]
  have h0 : bitStep s h 1 (some t) 0 = none := by
    unfold bitStep bumpAt
    rw [if_pos (show (1 : Nat) >>> 0 &&& 1 = 1 by decide), Option.some_bind,
      if_neg (by omega)]
  rw [h0]
  exact foldl_bitStep_none s h 1 _

theorem unpackColumn_bad (width s : Nat) (flags : List Nat) (t : List Nat)
    (hbad : ¬7 * (s + 1) + s < t.length) :
    unpackColumn width s flags (some t) = none := by
  unfold unpackColumn
  rw [show (256 : Nat) = 2 + 254 from rfl, List.range_add, List.foldl_append,
    show List.range 2 = [0, 1] from rfl, List.foldl_cons, List.foldl_cons,
    List.foldl_nil]
  rw [show byteStep width flags s (some t) 0 = some t from unpackByte_zero s _ _]
  rw [show byteStep width flags s (some t) 1 = none from
    unpackByte_one_bad s _ t hbad]
  exact foldl_byteStep_none width flags s _

theorem bumpAt_length (idx amt : Nat) (t t' : List Nat)
    (h : bumpAt idx amt t = some t') : t'.length = t.length := by
  unfold bumpAt at h
  by_cases hlt : idx < t.length
  · rw [if_pos hlt] at h
    obtain rfl := Option.some.inj h
    exact List.length_set t idx _
  · rw [if_neg hlt] at h
    exact absurd h (by simp)

theorem bitfold_some (s h v : Nat) (bits : List Nat) :
    ∀ (acc : Option (List Nat)) (t' : List Nat),
      List.foldl (bitStep s h v) acc bits = some t' →
      ∃ t, acc = some t ∧ t'.length = t.length := by
  induction bits with
  | nil => intro acc t' h'; exact ⟨t', h', rfl⟩
  | cons b bs ih =>
    intro acc t' h'
    rw [List.foldl_cons] at h'
    obtain ⟨t1, h1, hlen1⟩ := ih _ t' h'
    unfold bitStep at h1
    by_cases hc : (v >>> b) &&& 1 = 1
    · rw [if_pos hc] at h1
      obtain ⟨t0, hac, hbump⟩ := Option.bind_eq_some.mp h1
      exact ⟨t0, hac, by rw [hlen1, bumpAt_length _ _ _ _ hbump]⟩
    · rw [if_neg hc] at h1
      exact ⟨t1, h1, hlen1⟩

theorem bytefold_some (width : Nat) (flags : List Nat) (s : Nat)
    (vs : List Nat) :
    ∀ (acc : Option (List Nat)) (t' : List Nat),
      List.foldl (byteStep width flags s) acc vs = some t' →
      ∃ t, acc = some t ∧ t'.length = t.length := by
  induction vs with
  | nil => intro acc t' h'; exact ⟨t', h', rfl⟩
  | cons v vs ih =>
    intro acc t' h'
    rw [List.foldl_cons] at h'
    obtain ⟨t1, h1, hlen1⟩ := ih _ t' h'
    obtain ⟨t0, hac, hlen0⟩ := bitfold_some s _ v (List.range 8) acc t1 h1
    exact ⟨t0, hac, by rw [hlen1, hlen0]⟩

theorem colfold_some (width : Nat) (flags : List Nat) (svals : List Nat) :
    ∀ (acc : Option (List Nat)) (t' : List Nat),
      List.foldl (colStep width flags) acc svals = some t' →
      ∃ t, acc = some t ∧ t'.length = t.length := by
  induction svals with
  | nil => intro acc t' h'; exact ⟨t', h', rfl⟩
  | cons s ss ih =>
    intro acc t' h'
    rw [List.foldl_cons] at h'
    obtain ⟨t1, h1, hlen1⟩ := ih _ t' h'
    obtain ⟨t0, hac, hlen0⟩ := bytefold_some width flags s (List.range 256) acc t1 h1
    exact ⟨t0, hac, by rw [hlen1, hlen0]⟩

end Mongoose

namespace Mongoose

theorem bitfold_getD (s h v : Nat) (bits : List Nat) :
    ∀ (t : List Nat),
      (∀ b ∈ bits, (v >>> b) &&& 1 = 1 → 7 * (s + 1) + s - b < t.length) →
      ∃ t', List.foldl (bitStep s h v) (some t) bits = some t' ∧
        t'.length = t.length ∧
        ∀ c, t'.getD c 0 = t.getD c 0 +
          (bits.map (fun b =>
            if (v >>> b) &&& 1 = 1 ∧ 7 * (s + 1) + s - b = c then h
            else 0)).sum := by
  induction bits with
  | nil => intro t _; exact ⟨t, rfl, rfl, fun c => by simp⟩
  | cons b bs ih =>
    intro t hb
    by_cases hc : (v >>> b) &&& 1 = 1
    · have hlt : 7 * (s + 1) + s - b < t.length :=
        hb b (List.mem_cons_self b bs) hc
      have hstep : bitStep s h v (some t) b =
          some (t.set (7 * (s + 1) + s - b)
            (t.getD (7 * (s + 1) + s - b) 0 + h)) := by
        unfold bitStep bumpAt
        rw [if_pos hc, Option.some_bind, if_pos hlt]
      obtain ⟨t', hf, hlen, hgd⟩ :=
        ih (t.set (7 * (s + 1) + s - b) (t.getD (7 * (s + 1) + s - b) 0 + h))
          (fun b' hb' hc' => by
            rw [List.length_set]
            exact hb b' (List.mem_cons_of_mem b hb') hc')
      refine ⟨t', by rw [List.foldl_cons, hstep]; exact hf,
        by rw [hlen, List.length_set], ?_⟩
      intro c
      rw [hgd c, List.map_cons, List.sum_cons]
      by_cases hic : 7 * (s + 1) + s - b = c
      · subst hic
        rw [getD_set_eq _ _ _ _ hlt, if_pos ⟨hc, rfl⟩]
        omega
      · rw [getD_set_ne _ _ _ _ _ hic, if_neg (fun hconj => hic hconj.2)]
        omega
    · have hstep : bitStep s h v (some t) b = some t := by
        unfold bitStep
        rw [if_neg hc]
      obtain ⟨t', hf, hlen, hgd⟩ :=
        ih t (fun b' hb' hc' => hb b' (List.mem_cons_of_mem b hb') hc')
      refine ⟨t', by rw [List.foldl_cons, hstep]; exact hf, hlen, ?_⟩
      intro c
      rw [hgd c, List.map_cons, List.sum_cons,
        if_neg (fun hconj => hc hconj.1)]
      omega

theorem bytefold_getD (width : Nat) (flags : List Nat) (s : Nat)
    (vs : List Nat) :
    ∀ (t : List Nat), 7 * (s + 1) + s < t.length →
      ∃ t', List.foldl (byteStep width flags s) (some t) vs = some t' ∧
        t'.length = t.length ∧
        ∀ c, t'.getD c 0 = t.getD c 0 +
          (vs.map (fun v => ((List.range 8).map (fun b =>
            if (v >>> b) &&& 1 = 1 ∧ 7 * (s + 1) + s - b = c then
              (column width s flags).count v else 0)).sum)).sum := by
  induction vs with
  | nil => intro t _; exact ⟨t, rfl, rfl, fun c => by simp⟩
  | cons v vs ih =>
    intro t ht
    obtain ⟨t1, h1, hlen1, hgd1⟩ :=
      bitfold_getD s ((column width s flags).count v) v (List.range 8) t
        (fun b _ _ => by omega)
    obtain ⟨t', h2, hlen2, hgd2⟩ := ih t1 (by rw [hlen1]; exact ht)
    refine ⟨t', ?_, by rw [hlen2, hlen1], ?_⟩
    · rw [List.foldl_cons,
        show byteStep width flags s (some t) v = some t1 from h1]
      exact h2
    · intro c
      rw [hgd2 c, hgd1 c, List.map_cons, List.sum_cons]
      omega

theorem colfold_getD (width : Nat) (flags : List Nat) (svals : List Nat) :
    ∀ (t : List Nat),
      (∀ s ∈ svals, 7 * (s + 1) + s < t.length) →
      ∃ t', List.foldl (colStep width flags) (some t) svals = some t' ∧
        t'.length = t.length ∧
        ∀ c, t'.getD c 0 = t.getD c 0 +
          (svals.map (fun s => colSum width s flags c)).sum := by
  induction svals with
  | nil => intro t _; exact ⟨t, rfl, rfl, fun c => by simp⟩
  | cons s ss ih =>
    intro t ht
    obtain ⟨t1, h1, hlen1, hgd1⟩ :=
      bytefold_getD width flags s (List.range 256) t
        (ht s (List.mem_cons_self s ss))
    obtain ⟨t', h2, hlen2, hgd2⟩ := ih t1
      (fun s' hs' => by rw [hlen1]; exact ht s' (List.mem_cons_of_mem s hs'))
    refine ⟨t', ?_, by rw [hlen2, hlen1], ?_⟩
    · rw [List.foldl_cons, show colStep width flags (some t) s = some t1 from h1]
      exact h2
    · intro c
      rw [hgd2 c, hgd1 c, List.map_cons, List.sum_cons]
      show t.getD c 0 + colSum width s flags c +
          (ss.map (fun x => colSum width x flags c)).sum =
        t.getD c 0 + (colSum width s flags c +
          (ss.map (fun x => colSum width x flags c)).sum)
      omega

theorem getD_replicate_zero (n c : Nat) :
    (List.replicate n (0 : Nat)).getD c 0 = 0 := by
  rw [List.getD_eq_getElem?_getD, List.getElem?_replicate]
  split <;> rfl

theorem decode_some_getD (n_chans width : Nat) (flags : List Nat)
    (hbound : 8 * width ≤ n_chans) :
    ∃ t', decode_channel_histograms n_chans width flags = some t' ∧
      t'.length = n_chans ∧
      ∀ c, t'.getD c 0 =
        ((List.range width).map (fun s => colSum width s flags c)).sum := by
  obtain ⟨t', hf, hlen, hgd⟩ :=
    colfold_getD width flags (List.range width) (List.replicate n_chans 0)
      (fun s hs => by
        rw [List.length_replicate]
        have := List.mem_range.mp hs
        omega)
  refine ⟨t', hf, by rw [hlen, List.length_replicate], ?_⟩
  intro c
  rw [hgd c, getD_replicate_zero]
  omega

end Mongoose

namespace Mongoose

theorem list_range_map_sum (n : Nat) (f : Nat → Nat) :
    ((List.range n).map f).sum = ∑ i ∈ Finset.range n, f i := by
  induction n with
  | zero => rfl
  | succ m ih =>
    rw [List.range_succ, List.map_append, List.sum_append,
      Finset.sum_range_succ, ih]
    simp

theorem hist_sum_eq_countP (P : Nat → Prop) [DecidablePred P] :
    ∀ (col : List Nat), (∀ x ∈ col, x < 256) →
      (∑ v ∈ Finset.range 256, if P v then col.count v else 0) =
        col.countP (fun x => decide (P x)) := by
  intro col
  induction col with
  | nil =>
    intro _
    simp [List.count_nil]
  | cons x xs ih =>
    intro hval
    have hx : x < 256 := hval x (List.mem_cons_self x xs)
    have hxs : ∀ y ∈ xs, y < 256 := fun y hy => hval y (List.mem_cons_of_mem x hy)
    have hsplit : ∀ v, (if P v then (x :: xs).count v else 0) =
        (if P v then xs.count v else 0) +
        (if v = x then (if P x then 1 else 0) else 0) := by
      intro v
      rw [List.count_cons]
      by_cases hv : v = x
      · subst hv
        by_cases hp : P v <;> simp [hp]
      · have hbe : (x == v) = false := beq_eq_false_iff_ne.mpr (Ne.symm hv)
        rw [hbe]
        by_cases hp : P v <;> simp [hp, hv]
    rw [Finset.sum_congr rfl (fun v _ => hsplit v), Finset.sum_add_distrib,
      ih hxs, Finset.sum_ite_eq' (Finset.range 256) x
        (fun _ => if P x then 1 else 0),
      if_pos (Finset.mem_range.mpr hx), List.countP_cons]
    by_cases hp : P x <;> simp [hp]

theorem colSum_eq (width s : Nat) (flags : List Nat) (c : Nat)
    (hcol : ∀ x ∈ column width s flags, x < 256) :
    colSum width s flags c =
      if 8 * s ≤ c ∧ c ≤ 8 * s + 7 then
        (column width s flags).countP
          (fun f => decide ((f >>> (7 * (s + 1) + s - c)) &&& 1 = 1))
      else 0 := by
  unfold colSum
  rw [list_range_map_sum,
    Finset.sum_congr rfl (fun v _ => list_range_map_sum 8 _), Finset.sum_comm]
  have hinner : ∀ b, (∑ v ∈ Finset.range 256,
      if (v >>> b) &&& 1 = 1 ∧ 7 * (s + 1) + s - b = c then
        (column width s flags).count v else 0) =
      (if 7 * (s + 1) + s - b = c then
        (column width s flags).countP
          (fun f => decide ((f >>> b) &&& 1 = 1)) else 0) := by
    intro b
    by_cases hbc : 7 * (s + 1) + s - b = c
    · rw [if_pos hbc,
        Finset.sum_congr rfl (fun v _ =>
          if_congr (and_iff_left hbc) rfl rfl)]
      exact hist_sum_eq_countP (fun f => (f >>> b) &&& 1 = 1) _ hcol
    · rw [if_neg hbc,
        Finset.sum_congr rfl (fun v _ => if_neg (fun hconj => hbc hconj.2))]
      exact Finset.sum_const_zero
  rw [Finset.sum_congr rfl (fun b _ => hinner b)]
  by_cases hw : 8 * s ≤ c ∧ c ≤ 8 * s + 7
  · rw [if_pos hw]
    have hb0 : 7 * (s + 1) + s - c < 8 := by omega
    have hpt : ∀ b ∈ Finset.range 8,
        (if 7 * (s + 1) + s - b = c then
          (column width s flags).countP
            (fun f => decide ((f >>> b) &&& 1 = 1)) else 0) =
        (if b = 7 * (s + 1) + s - c then
          (column width s flags).countP
            (fun f => decide ((f >>> (7 * (s + 1) + s - c)) &&& 1 = 1))
         else 0) := by
      intro b hb
      have hb8 : b < 8 := Finset.mem_range.mp hb
      by_cases hbb : b = 7 * (s + 1) + s - c
      · subst hbb
        rw [if_pos (by omega), if_pos rfl]
      · rw [if_neg (by omega), if_neg hbb]
    rw [Finset.sum_congr rfl hpt,
      Finset.sum_ite_eq' (Finset.range 8) (7 * (s + 1) + s - c) _,
      if_pos (Finset.mem_range.mpr hb0)]
  · rw [if_neg hw]
    have hpt : ∀ b ∈ Finset.range 8,
        (if 7 * (s + 1) + s - b = c then
          (column width s flags).countP
            (fun f => decide ((f >>> b) &&& 1 = 1)) else 0) = 0 := by
      intro b hb
      have hb8 : b < 8 := Finset.mem_range.mp hb
      exact if_neg (by omega)
    rw [Finset.sum_congr rfl hpt]
    exact Finset.sum_const_zero

theorem stepBy_drop_eq (w : Nat) (hw : 0 < w) :
    ∀ (n : Nat) (l : List Nat) (s : Nat), l.length = n * w → s < w →
      stepBy w (l.drop s) =
        (List.range n).map (fun r => l.getD (r * w + s) 0) := by
  intro n
  induction n with
  | zero =>
    intro l s hlen _
    have : l = [] := List.length_eq_zero.mp (by omega)
    subst this
    simp [stepBy]
  | succ m ih =>
    intro l s hlen hs
    have hsl : s < l.length := by
      have : w ≤ (m + 1) * w := by
        calc w = 1 * w := (one_mul w).symm
        _ ≤ (m + 1) * w := Nat.mul_le_mul_right w (by omega)
      omega
    rw [List.drop_eq_getElem_cons hsl, stepBy, List.drop_drop]
    have hdd : s + 1 + (w - 1) = s + w := by omega
    rw [hdd]
    have hsw : l.drop (s + w) = (l.drop w).drop s := by
      rw [List.drop_drop]
      exact congrArg (fun j => l.drop j) (by omega)
    have hlen' : (l.drop w).length = m * w := by
      rw [List.length_drop, hlen, Nat.add_mul, one_mul]
      omega
    rw [hsw, ih (l.drop w) s hlen' hs,
      List.range_succ_eq_map, List.map_cons, List.map_map]
    refine congrArg₂ _ ?_ ?_
    · show l[s] = l.getD (0 * w + s) 0
      have h0 : 0 * w + s = s := by omega
      rw [h0, List.getD_eq_getElem l 0 hsl]
    · refine List.map_congr_left ?_
      intro r _
      show (l.drop w).getD (r * w + s) 0 = l.getD ((r + 1) * w + s) 0
      rw [List.getD_eq_getElem?_getD, List.getD_eq_getElem?_getD,
        List.getElem?_drop]
      exact congrArg (fun j => l[j]?.getD 0) (by ring)

theorem column_eq_rows (width n_rows : Nat) (flags : List Nat) (s : Nat)
    (hw : 0 < width) (hlen : flags.length = n_rows * width) (hs : s < width) :
    column width s flags =
      (List.range n_rows).map (fun r => flags.getD (r * width + s) 0) :=
  stepBy_drop_eq width hw n_rows flags s hlen hs

theorem column_elems_lt (width n_rows s : Nat) (flags : List Nat)
    (hw : 0 < width) (hlen : flags.length = n_rows * width) (hs : s < width)
    (hval : ∀ f ∈ flags, f < 256) :
    ∀ x ∈ column width s flags, x < 256 := by
  rw [column_eq_rows width n_rows flags s hw hlen hs]
  intro x hx
  obtain ⟨r, hr, rfl⟩ := List.mem_map.mp hx
  have hrn : r < n_rows := List.mem_range.mp hr
  have hidx : r * width + s < flags.length := by
    have h1 : r * width + s < (r + 1) * width := by
      rw [Nat.add_mul, one_mul]
      omega
    have h2 : (r + 1) * width ≤ n_rows * width :=
      Nat.mul_le_mul_right width (by omega)
    omega
  rw [List.getD_eq_getElem flags 0 hidx]
  exact hval _ (List.getElem_mem hidx)

end Mongoose

namespace Mongoose

/-- Claim C1 (counterexample): the data-model invariants alone do not
make decoding succeed.  The archive with `channel_count = 1`,
`antenna_count = 1` (so one baseline), `scan_count = 1`,
`row_width_bytes = 1` and raw bits `[0]` satisfies every invariant
(`1 ≤ 1 * 8`, buffer length `1 * 1 * 1`), yet the histogram unpack
addresses channel `7` unconditionally and panics (`none`), so
`decode_channel_histograms` does not return the naive per-channel
count `[0]`. -/
theorem decode_hist_c1_counterexample :
    decode_channel_histograms 1 1 [0] = none ∧
    flagCountsNaive 1 1 1 [0] = [0] ∧
    0 < 1 ∧ (1 : Nat) ≤ 1 * 8 ∧ ([0] : List Nat).length = 1 * 1 * 1 := by
  refine ⟨?_, by decide, by decide, by decide, by decide⟩
  unfold decode_channel_histograms
  rw [show List.range 1 = [0] from rfl, List.foldl_cons, List.foldl_nil]
  exact unpackColumn_bad 1 0 [0] (List.replicate 1 0) (by decide)

/-- Claim C1 (amended): for every archive satisfying the data-model
invariants and additionally `channel_count = 8 * row_width_bytes` (the
unpack loop addresses all of channels `0 .. 8*row_width_bytes - 1`
unconditionally, so decoding panics whenever
`channel_count < 8 * row_width_bytes`), the two-pass 256-bucket histogram
decode returns a sequence of length `channel_count` whose entry for
channel `c` equals the number of (baseline, scan) rows in which the bit
mapped to `c` by the fixed convention (bit `b` of byte column `s` encodes
channel `7*(s+1) + s - b`, i.e. channel `c` is bit `7 - c % 8` of column
`c / 8`) is set. -/
theorem decode_hist_eq_naive (n_chans width n_rows : Nat) (flags : List Nat)
    (hchan : n_chans = 8 * width) (hpos : 0 < n_chans)
    (hlen : flags.length = n_rows * width)
    (hval : ∀ f ∈ flags, f < 256) :
    decode_channel_histograms n_chans width flags =
      some (flagCountsNaive n_chans width n_rows flags) ∧
    (flagCountsNaive n_chans width n_rows flags).length = n_chans := by
  have hw : 0 < width := by omega
  obtain ⟨t', hdec, hlent, hgd⟩ := decode_some_getD n_chans width flags (by omega)
  have hnlen : (flagCountsNaive n_chans width n_rows flags).length = n_chans := by
    unfold flagCountsNaive
    rw [List.length_map, List.length_range]
  have hngd : ∀ c, c < n_chans →
      (flagCountsNaive n_chans width n_rows flags).getD c 0 =
        ((List.range n_rows).filter (fun r =>
          decide ((flags.getD (r * width + c / 8) 0 >>> (7 - c % 8)) &&& 1 =
            1))).length := by
    intro c hc
    unfold flagCountsNaive
    rw [List.getD_eq_getElem _ _
        (by rw [List.length_map, List.length_range]; exact hc),
      List.getElem_map, List.getElem_range]
  have hcomp : ∀ c, c < n_chans → t'.getD c 0 =
      ((List.range n_rows).filter (fun r =>
        decide ((flags.getD (r * width + c / 8) 0 >>> (7 - c % 8)) &&& 1 =
          1))).length := by
    intro c hc
    rw [hgd c, list_range_map_sum,
      Finset.sum_congr rfl (fun s hs => colSum_eq width s flags c
        (column_elems_lt width n_rows s flags hw hlen
          (Finset.mem_range.mp hs) hval))]
    have hs0 : c / 8 < width := by omega
    have hpt : ∀ s ∈ Finset.range width,
        (if 8 * s ≤ c ∧ c ≤ 8 * s + 7 then
          (column width s flags).countP
            (fun f => decide ((f >>> (7 * (s + 1) + s - c)) &&& 1 = 1))
         else 0) =
        (if s = c / 8 then
          (column width (c / 8) flags).countP
            (fun f => decide ((f >>> (7 * (c / 8 + 1) + c / 8 - c)) &&& 1 = 1))
         else 0) := by
      intro s hs
      by_cases hss : s = c / 8
      · subst hss
        rw [if_pos (by omega), if_pos rfl]
      · rw [if_neg (by omega), if_neg hss]
    rw [Finset.sum_congr rfl hpt,
      Finset.sum_ite_eq' (Finset.range width) (c / 8) _,
      if_pos (Finset.mem_range.mpr hs0),
      column_eq_rows width n_rows flags (c / 8) hw hlen hs0,
      List.countP_map]
    have he : 7 * (c / 8 + 1) + c / 8 - c = 7 - c % 8 := by omega
    rw [he, List.countP_eq_length_filter]
    rfl
  have ht' : t' = flagCountsNaive n_chans width n_rows flags := by
    refine List.ext_getElem (by rw [hlent, hnlen]) ?_
    intro i h1 h2
    have hi : i < n_chans := by rw [hlent] at h1; exact h1
    rw [← List.getD_eq_getElem t' 0 h1, ← List.getD_eq_getElem _ 0 h2,
      hcomp i hi, hngd i hi]
  exact ⟨by rw [hdec, ht'], hnlen⟩

/-- Witness for C1 (amended) on a concrete two-row, one-byte-column
archive: byte `128` flags channel 0 (bit 7), byte `1` flags channel 7
(bit 0). -/
theorem decode_hist_eq_naive_witness :
    decode_channel_histograms 8 1 [128, 1] =
      some (flagCountsNaive 8 1 2 [128, 1]) ∧
    (flagCountsNaive 8 1 2 [128, 1]).length = 8 :=
  ⟨(decode_hist_eq_naive 8 1 2 [128, 1] (by decide) (by decide) (by decide)
      (by decide)).1,
   (decode_hist_eq_naive 8 1 2 [128, 1] (by decide) (by decide) (by decide)
      (by decide)).2⟩

/-- Claim C9: in the decode loop every channel index
`7*(s+1) + s - bit`, for every byte column `s < row_width_bytes` and
every bit, is accessed unconditionally (the unpack runs over all 256
byte values even when a bucket's count is zero), so decoding completes
without an index panic — returns `some` rather than the modelled panic
`none` — if and only if `channel_count ≥ 8 * row_width_bytes`, for every
flag buffer whatsoever. -/
theorem decode_hist_inbounds_iff (n_chans width : Nat) (flags : List Nat) :
    (∃ t, decode_channel_histograms n_chans width flags = some t) ↔
      8 * width ≤ n_chans := by
  constructor
  · rintro ⟨t, ht⟩
    by_contra hlt
    push_neg at hlt
    cases width with
    | zero => omega
    | succ w =>
      unfold decode_channel_histograms at ht
      rw [List.range_succ, List.foldl_append, List.foldl_cons,
        List.foldl_nil] at ht
      cases hmid : List.foldl (colStep (w + 1) flags)
          (some (List.replicate n_chans 0)) (List.range w) with
      | none =>
        rw [hmid, show colStep (w + 1) flags none w = none from
          unpackColumn_none _ _ _] at ht
        exact absurd ht (by simp)
      | some t0 =>
        rw [hmid] at ht
        obtain ⟨t1, hinit, hlen0⟩ :=
          colfold_some (w + 1) flags (List.range w) _ t0 hmid
        have ht0len : t0.length = n_chans := by
          rw [hlen0, ← Option.some.inj hinit, List.length_replicate]
        rw [show colStep (w + 1) flags (some t0) w = none from
          unpackColumn_bad (w + 1) w flags t0 (by omega)] at ht
        exact absurd ht (by simp)
  · intro hb
    obtain ⟨t', hdec, _, _⟩ := decode_some_getD n_chans width flags hb
    exact ⟨t', hdec⟩

end Mongoose
